import Mathlib

/-!
Verification development for the custom-wordlist generator of
`passwordchecker.py` (functions `case_variations`, `generate_leet_variants`,
`build_base_words`, `generate_wordlist`, the table `LEET_MAP` and the
constants `MAX_LEET_COMBINATIONS`, `MAX_FINAL_WORDLIST_SIZE`).

Modelling conventions:

* A Python `set` of strings is modelled as a duplicate-free `List String`;
  `setAdd` is `set.add` (it appends only when the element is new).  The code
  never iterates over a set in an order-sensitive way (sets are only tested
  for membership and size, or handed to `sorted`), so the list order carried
  by the model is immaterial.
* Python `sorted` on strings compares lexicographically by code point, which
  is exactly Lean's `String` order; `pySorted` is an insertion sort for it.
* `str.lower`/`str.upper`/`str.capitalize`/`str.strip` are modelled
  character-wise with `Char.toLower`/`Char.toUpper` (ASCII, which covers the
  program's data; Python's extra Unicode case rules are out of scope).
* Machine integers do not occur: all counts are small `Nat`s.
* The `estimated` block of `generate_leet_variants` (source lines 99-104)
  computes a local variable that is never read afterwards, so it has no
  observable effect and is omitted from the embedding.
* File writing and printing are outside the model: `generate_wordlist`
  returns the `final_list` that the source computes and then writes out.
-/

set_option maxRecDepth 100000

namespace PasswordChecker

/-- Python whitespace stripped by `str.strip()` (ASCII part). -/
def isPySpace (c : Char) : Bool :=
  c = ' ' || c = '\t' || c = '\n' || c = '\r' || c = '\x0b' || c = '\x0c'

/-- Model of `str.strip()`: drop leading and trailing whitespace. -/
def pyStrip (s : String) : String :=
  String.mk (((s.data.dropWhile isPySpace).reverse.dropWhile isPySpace).reverse)

/-- Model of `str.lower()` (ASCII). -/
def pyLower (s : String) : String :=
  String.mk (s.data.map Char.toLower)

/-- Model of `str.upper()` (ASCII). -/
def pyUpper (s : String) : String :=
  String.mk (s.data.map Char.toUpper)

/-- Model of `str.capitalize()`: first character uppercased, rest lowercased. -/
def pyCapitalize (s : String) : String :=
  match s.data with
  | [] => String.mk []
  | c :: cs => String.mk (Char.toUpper c :: cs.map Char.toLower)

/-- Python `set.add`: a duplicate-free list grows only by new elements. -/
def setAdd (s : List String) (x : String) : List String :=
  if x ∈ s then s else s ++ [x]

/-- Python `set.update`: add every element of `t`. -/
def setUnion (s : List String) (t : List String) : List String :=
  t.foldl setAdd s

/-- Python's `<` on strings: lexicographic by code point. -/
def strLtChars : List Char → List Char → Bool
  | [], [] => false
  | [], _ :: _ => true
  | _ :: _, [] => false
  | a :: as, b :: bs => if a < b then true else if b < a then false else strLtChars as bs

/-- Python's `<` on strings, on the `String` wrapper. -/
def strLt (a b : String) : Bool := strLtChars a.data b.data

/-- Insert into a list sorted by the code-point order on strings. -/
def insertSorted (x : String) : List String → List String
  | [] => [x]
  | y :: ys => if strLt y x then y :: insertSorted x ys else x :: y :: ys

/-- Python `sorted` on a list of strings (code-point lexicographic order). -/
def pySorted (l : List String) : List String :=
  l.foldr insertSorted []

/-- The table `LEET_MAP` of the source: lowercase letter to its leet
alternatives (the original letter listed first). -/
def LEET_MAP (c : Char) : Option (List Char) :=
  if c = 'a' then some ['a', '@', '4']
  else if c = 'b' then some ['b', '8']
  else if c = 'e' then some ['e', '3']
  else if c = 'i' then some ['i', '1', '!']
  else if c = 'l' then some ['l', '1']
  else if c = 'o' then some ['o', '0']
  else if c = 's' then some ['s', '$', '5']
  else if c = 't' then some ['t', '7']
  else if c = 'g' then some ['g', '9']
  else none

/-- Source constant: per-word leet variant cap. -/
def MAX_LEET_COMBINATIONS : Nat := 5000

/-- Source constant: safety cap for the final output. -/
def MAX_FINAL_WORDLIST_SIZE : Nat := 200000

/-- `case_variations`: the set of the word, its lowercase, uppercase and
capitalized forms, returned sorted. -/
def case_variations (word : String) : List String :=
  pySorted (setAdd (setAdd (setAdd (setAdd [] word) (pyLower word)) (pyUpper word)) (pyCapitalize word))

/-- `dict.fromkeys(...)` used as an order-preserving dedupe. -/
def dedupFirst (l : List Char) : List Char :=
  l.foldl (fun acc c => if c ∈ acc then acc else acc ++ [c]) []

/-- Per-character options: `[ch] + LEET_MAP[ch.lower()]`, deduplicated,
falling back to the character itself when the table has no entry. -/
def leetOptions (ch : Char) : List Char :=
  match LEET_MAP (Char.toLower ch) with
  | some alts => dedupFirst (ch :: alts)
  | none => [ch]

/-- The per-position alphabets built by `generate_leet_variants`. -/
def leetChoices (word : String) : List (List Char) :=
  word.data.map leetOptions

/-- `itertools.product`: rightmost position varies fastest. -/
def charProduct : List (List Char) → List (List Char)
  | [] => [[]]
  | xs :: rest => xs.flatMap (fun x => (charProduct rest).map (fun combo => x :: combo))

/-- The enumeration loop of `generate_leet_variants`: join each combo, add it
to the set, and stop as soon as the set has reached `cap` elements. -/
def accumulateCapped (cap : Nat) : List (List Char) → List String → List String
  | [], acc => acc
  | combo :: rest, acc =>
    let acc2 := setAdd acc (String.mk combo)
    if cap ≤ acc2.length then acc2 else accumulateCapped cap rest acc2

/-- `generate_leet_variants(word, cap)` of the source. -/
def generate_leet_variants (word : String) (cap : Nat) : List String :=
  if word.data = [] then []
  else accumulateCapped cap (charProduct (leetChoices word)) []

/-- The fixed affix list of `build_base_words`. -/
def affixes : List String := ["", "123", "!", "@", "2025", "01", "07"]

/-- Inner loop of `build_base_words`: add a case variation and its affixed
forms. -/
def addWithAffixes (base : List String) (v : String) : List String :=
  affixes.foldl (fun b aff => setAdd b (v ++ aff)) (setAdd base v)

/-- Per-token loop of `build_base_words`: strip, skip empties, and add every
case variation with affixes. -/
def addCaseWords (base : List String) (inp0 : String) : List String :=
  let inp := pyStrip inp0
  if inp = "" then base
  else (case_variations inp).foldl addWithAffixes base

/-- One step of the pairwise-concatenation loop of `build_base_words`. -/
def pairStep (a : String) (b : List String) (bb : String) : List String :=
  if a ≠ bb ∧ a.length + bb.length ≤ 30 then
    setAdd (setAdd b (a ++ bb)) (a ++ bb ++ "123")
  else b

/-- Inner pairwise loop: fixed first token `a`, all second tokens. -/
def addPairsFor (tokens : List String) (base : List String) (a : String) : List String :=
  tokens.foldl (pairStep a) base

/-- The full pairwise-concatenation loop of `build_base_words`. -/
def addPairs (tokens : List String) (base : List String) : List String :=
  tokens.foldl (addPairsFor tokens) base

/-- `build_base_words(inputs)` of the source. -/
def build_base_words (inputs : List String) : List String :=
  let base := inputs.foldl addCaseWords []
  let inputs_lower := (inputs.filter (fun x => x ≠ "")).map pyLower
  pySorted (addPairs inputs_lower base)

/-- The year range `range(1990, 2026, 5)` of `generate_wordlist`. -/
def YEARS : List Nat := [1990, 1995, 2000, 2005, 2010, 2015, 2020, 2025]

/-- The year loop of `generate_wordlist`: before each year, stop if the
accumulated set has reached the global cap; otherwise add `w+year` and
`year+w`. -/
def yearLoop (w : String) : List Nat → List String → List String
  | [], all => all
  | y :: ys, all =>
    if MAX_FINAL_WORDLIST_SIZE ≤ all.length then all
    else yearLoop w ys (setAdd (setAdd all (w ++ toString y)) (toString y ++ w))

/-- The common numeric endings of `generate_wordlist`, guarded by the cap. -/
def commonSuffixes (w : String) (all : List String) : List String :=
  if all.length < MAX_FINAL_WORDLIST_SIZE then
    setAdd (setAdd all (w ++ "007")) (w ++ "1234")
  else all

/-- The body of the per-base-word loop of `generate_wordlist` (after the
length-40 skip): leet variants, year combos, then common endings. -/
def processWord (all : List String) (w : String) : List String :=
  commonSuffixes w (yearLoop w YEARS (setUnion all (generate_leet_variants w 500)))

/-- The per-base-word loop of `generate_wordlist`: skip words longer than 40
characters, and break out once the accumulated set reaches the global cap. -/
def wordLoop : List String → List String → List String
  | [], all => all
  | w :: ws, all =>
    if 40 < w.length then wordLoop ws all
    else
      let all2 := processWord all w
      if MAX_FINAL_WORDLIST_SIZE ≤ all2.length then all2
      else wordLoop ws all2

/-- Final cleanup of `generate_wordlist`: truncate the sorted list when it
still exceeds the global cap. -/
def finalCap (l : List String) : List String :=
  if MAX_FINAL_WORDLIST_SIZE < l.length then l.take MAX_FINAL_WORDLIST_SIZE else l

/-- `generate_wordlist(inputs)` of the source: start from the base words, run
the per-base-word loop, sort, and cap.  The result is the `final_list` that
the source writes to disk. -/
def generate_wordlist (inputs : List String) : List String :=
  finalCap (pySorted (wordLoop (build_base_words inputs) (build_base_words inputs)))

/-- The file content written by `generate_wordlist` (one entry, then a
newline, for each entry), modelled as a character stream. -/
def fileChars (l : List String) : List Char :=
  l.foldr (fun s acc => s.data ++ '\n' :: acc) []

/-- Split a character stream into lines at newline characters; a trailing
chunk with no final newline becomes a last line. -/
def linesOfAux : List Char → List Char → List String
  | [], cur => if cur = [] then [] else [String.mk cur]
  | c :: rest, cur =>
    if c = '\n' then String.mk cur :: linesOfAux rest []
    else linesOfAux rest (cur ++ [c])

/-- Read the written file back as the list of its lines. -/
def linesOf (cs : List Char) : List String := linesOfAux cs []

/-! Basic lemmas about the set and sorting model. -/

theorem mem_setAdd {s : List String} {y x : String} :
    x ∈ setAdd s y ↔ x ∈ s ∨ x = y := by
  unfold setAdd
  split
  · next h =>
    constructor
    · exact Or.inl
    · rintro (hx | rfl)
      · exact hx
      · exact h
  · simp [List.mem_append]

theorem mem_setAdd_self (s : List String) (y : String) : y ∈ setAdd s y :=
  mem_setAdd.mpr (Or.inr rfl)

theorem mem_setAdd_of_mem {s : List String} {x : String} (y : String) (h : x ∈ s) :
    x ∈ setAdd s y :=
  mem_setAdd.mpr (Or.inl h)

theorem length_setAdd_le (s : List String) (y : String) :
    (setAdd s y).length ≤ s.length + 1 := by
  unfold setAdd
  split
  · exact Nat.le_succ _
  · simp

theorem nodup_setAdd {s : List String} (h : s.Nodup) (y : String) :
    (setAdd s y).Nodup := by
  unfold setAdd
  split
  · exact h
  · next hy => simp [List.nodup_append, h, hy]

theorem pySorted_cons (z : String) (zs : List String) :
    pySorted (z :: zs) = insertSorted z (pySorted zs) := rfl

theorem mem_insertSorted (y : String) (l : List String) (x : String) :
    x ∈ insertSorted y l ↔ x = y ∨ x ∈ l := by
  induction l with
  | nil => simp [insertSorted]
  | cons z zs ih =>
    unfold insertSorted
    split
    · simp only [List.mem_cons, ih]
      tauto
    · simp only [List.mem_cons]

theorem mem_pySorted (l : List String) (x : String) : x ∈ pySorted l ↔ x ∈ l := by
  induction l with
  | nil => simp [pySorted]
  | cons z zs ih => simp [pySorted_cons, mem_insertSorted, ih]

theorem length_insertSorted (y : String) (l : List String) :
    (insertSorted y l).length = l.length + 1 := by
  induction l with
  | nil => rfl
  | cons z zs ih =>
    unfold insertSorted
    split <;> simp [ih]

theorem length_pySorted (l : List String) : (pySorted l).length = l.length := by
  induction l with
  | nil => rfl
  | cons z zs ih => simp [pySorted_cons, length_insertSorted, ih]

/-! Generic lemmas about folds over the set model. -/

theorem foldl_mem_mono {α : Type} {f : List String → α → List String}
    (hf : ∀ b y x, x ∈ b → x ∈ f b y) :
    ∀ (l : List α) (b : List String) (x : String), x ∈ b → x ∈ l.foldl f b := by
  intro l
  induction l with
  | nil =>
    intro b x h
    simpa using h
  | cons y ys ih =>
    intro b x h
    simp only [List.foldl_cons]
    exact ih _ _ (hf b y x h)

theorem foldl_preserves_all {α : Type} {P : String → Prop} {Q : α → Prop}
    {f : List String → α → List String}
    (hf : ∀ b y, Q y → (∀ x ∈ b, P x) → ∀ x ∈ f b y, P x) :
    ∀ (l : List α), (∀ y ∈ l, Q y) → ∀ (b : List String), (∀ x ∈ b, P x) →
      ∀ x ∈ l.foldl f b, P x := by
  intro l
  induction l with
  | nil =>
    intro _ b hb x hx
    simpa using hb x (by simpa using hx)
  | cons y ys ih =>
    intro hl b hb
    simp only [List.foldl_cons]
    exact ih (fun z hz => hl z (List.mem_cons_of_mem _ hz)) (f b y)
      (hf b y (hl y (List.mem_cons_self _ _)) hb)

/-! Lemmas about the leet expander. -/

theorem mem_charProduct_forall₂ :
    ∀ {ls : List (List Char)} {combo : List Char}, combo ∈ charProduct ls →
      List.Forall₂ (fun c cs => c ∈ cs) combo ls := by
  intro ls
  induction ls with
  | nil =>
    intro combo h
    simp only [charProduct, List.mem_singleton] at h
    subst h
    exact List.Forall₂.nil
  | cons xs rest ih =>
    intro combo h
    simp only [charProduct, List.mem_flatMap, List.mem_map] at h
    obtain ⟨x, hx, combo2, hcombo2, rfl⟩ := h
    exact List.Forall₂.cons hx (ih hcombo2)

theorem length_of_mem_charProduct {ls : List (List Char)} {combo : List Char}
    (h : combo ∈ charProduct ls) : combo.length = ls.length :=
  (mem_charProduct_forall₂ h).length_eq

theorem charProduct_singletons (l : List Char) :
    charProduct (l.map (fun c => [c])) = [l] := by
  induction l with
  | nil => rfl
  | cons c cs ih => simp [charProduct, ih]

theorem mem_accumulateCapped {cap : Nat} :
    ∀ {combos : List (List Char)} {acc : List String} {x : String},
      x ∈ accumulateCapped cap combos acc →
      x ∈ acc ∨ ∃ combo ∈ combos, x = String.mk combo := by
  intro combos
  induction combos with
  | nil =>
    intro acc x h
    exact Or.inl h
  | cons combo rest ih =>
    intro acc x h
    simp only [accumulateCapped] at h
    by_cases hc : cap ≤ (setAdd acc (String.mk combo)).length
    · rw [if_pos hc] at h
      rcases mem_setAdd.mp h with h1 | h1
      · exact Or.inl h1
      · exact Or.inr ⟨combo, List.mem_cons_self _ _, h1⟩
    · rw [if_neg hc] at h
      rcases ih h with h1 | h1
      · rcases mem_setAdd.mp h1 with h2 | h2
        · exact Or.inl h2
        · exact Or.inr ⟨combo, List.mem_cons_self _ _, h2⟩
      · obtain ⟨c2, hc2, hx⟩ := h1
        exact Or.inr ⟨c2, List.mem_cons_of_mem _ hc2, hx⟩

theorem length_accumulateCapped_le {cap : Nat} :
    ∀ {combos : List (List Char)} {acc : List String},
      acc.length < cap → (accumulateCapped cap combos acc).length ≤ cap := by
  intro combos
  induction combos with
  | nil =>
    intro acc h
    exact Nat.le_of_lt h
  | cons combo rest ih =>
    intro acc h
    simp only [accumulateCapped]
    have h2 : (setAdd acc (String.mk combo)).length ≤ cap := by
      have := length_setAdd_le acc (String.mk combo)
      omega
    by_cases hc : cap ≤ (setAdd acc (String.mk combo)).length
    · rw [if_pos hc]
      exact h2
    · rw [if_neg hc]
      exact ih (not_le.mp hc)

theorem nodup_accumulateCapped {cap : Nat} :
    ∀ {combos : List (List Char)} {acc : List String},
      acc.Nodup → (accumulateCapped cap combos acc).Nodup := by
  intro combos
  induction combos with
  | nil =>
    intro acc h
    exact h
  | cons combo rest ih =>
    intro acc h
    simp only [accumulateCapped]
    split
    · exact nodup_setAdd h _
    · exact ih (nodup_setAdd h _)

theorem string_mk_data (s : String) : String.mk s.data = s := rfl

theorem data_eq_nil_iff (s : String) : s.data = [] ↔ s = "" := by
  constructor
  · intro h
    rw [← string_mk_data s, h]
  · intro h
    subst h
    rfl

theorem setAdd_nil (x : String) : setAdd [] x = [x] := by
  simp [setAdd]

/-- Claim C1: for every input token list, the final list returned by the
wordlist generator has length at most `MAX_FINAL_WORDLIST_SIZE` (200,000). -/
theorem generate_wordlist_length_le_cap (inputs : List String) :
    (generate_wordlist inputs).length ≤ MAX_FINAL_WORDLIST_SIZE := by
  unfold generate_wordlist finalCap
  split
  · simp only [List.length_take]
    exact min_le_left _ _
  · next h => exact Nat.le_of_not_lt h

/-- Claim C3: wordlist generation is deterministic.  The embedding is a pure
function of the token list (the source draws on no randomness source), so two
invocations on the same inputs and the same configuration agree, both for the
end-to-end generator and for the leet expander. -/
theorem generation_deterministic (inputs : List String) (word : String) (cap : Nat) :
    generate_wordlist inputs = generate_wordlist inputs ∧
    generate_leet_variants word cap = generate_leet_variants word cap :=
  ⟨rfl, rfl⟩

/-- Claim C2: for every word and every positive cap, the set returned by
`generate_leet_variants(word, cap)` is duplicate-free (so its length is its
cardinality) and has at most `cap` elements. -/
theorem generate_leet_variants_card_le (word : String) (cap : Nat) (hcap : 0 < cap) :
    (generate_leet_variants word cap).Nodup ∧
    (generate_leet_variants word cap).length ≤ cap := by
  unfold generate_leet_variants
  split
  · exact ⟨List.nodup_nil, Nat.zero_le cap⟩
  · exact ⟨nodup_accumulateCapped List.nodup_nil,
      length_accumulateCapped_le (by simpa using hcap)⟩

/-- Witness for claim C2 at `word = "a"`, `cap = 1`. -/
theorem generate_leet_variants_card_le_witness :
    (generate_leet_variants ("a") 1).Nodup ∧
    (generate_leet_variants ("a") 1).length ≤ 1 :=
  generate_leet_variants_card_le ("a") 1 (by decide)

/-- Claim C4 (counterexample): `generate_leet_variants("ab", 100)` does not
have 3 elements and is not `{"ab", "@b", "4b"}`: it also contains `"a8"`,
because `'b'` has the alternative `'8'` in `LEET_MAP`. -/
theorem leet_variants_ab_not_three :
    "a8" ∈ generate_leet_variants ("ab") 100 ∧
    (generate_leet_variants ("ab") 100).length ≠ 3 := by
  decide

/-- Claim C4 (amended): `generate_leet_variants("ab", 100)` returns exactly
the 6-element set `{"ab", "a8", "@b", "@8", "4b", "48"}` — the full product,
since `'a'` has options `a/@/4` and `'b'` has options `b/8`, and 6 ≤ 100. -/
theorem leet_variants_ab_eq :
    generate_leet_variants ("ab") 100 = ["ab", "a8", "@b", "@8", "4b", "48"] := by
  decide

/-- Claim C5: for every positive cap, `generate_leet_variants("", cap)` is the
empty set, and for every non-empty word none of whose characters has a
lowercase form in `LEET_MAP`, `generate_leet_variants(word, cap)` is exactly
the singleton containing the word unchanged. -/
theorem generate_leet_variants_edge (word : String) (cap : Nat) (hcap : 0 < cap)
    (hw : word ≠ "") (hns : ∀ c ∈ word.data, LEET_MAP (Char.toLower c) = none) :
    generate_leet_variants ("") cap = [] ∧ generate_leet_variants word cap = [word] := by
  constructor
  · simp [generate_leet_variants]
  · have hchoices : leetChoices word = word.data.map (fun c => [c]) := by
      unfold leetChoices
      apply List.map_congr_left
      intro c hc
      unfold leetOptions
      rw [hns c hc]
    have hdata : ¬ word.data = [] := by
      rw [data_eq_nil_iff]
      exact hw
    unfold generate_leet_variants
    rw [if_neg hdata, hchoices, charProduct_singletons]
    simp only [accumulateCapped, setAdd_nil, string_mk_data]
    rw [ite_self]

/-- Witness for claim C5 at `word = "xy"`, `cap = 1`. -/
theorem generate_leet_variants_edge_witness :
    generate_leet_variants ("") 1 = [] ∧ generate_leet_variants ("xy") 1 = ["xy"] :=
  generate_leet_variants_edge ("xy") 1 (by decide) (by decide) (by decide)

/-- Every leet variant has the length of the source word (helper shared by
several claims). -/
theorem mem_generate_leet_variants_length {word : String} {cap : Nat} {x : String}
    (hx : x ∈ generate_leet_variants word cap) : x.length = word.length := by
  unfold generate_leet_variants at hx
  split at hx
  · simp at hx
  · rcases mem_accumulateCapped hx with h | ⟨combo, hcombo, rfl⟩
    · simp at h
    · have h2 := length_of_mem_charProduct hcombo
      show (String.mk combo).length = word.length
      have h3 : (String.mk combo).length = combo.length := rfl
      have h4 : word.length = word.data.length := rfl
      rw [h3, h4, h2]
      simp [leetChoices]

/-- Claim C10: for every non-empty word and positive cap, every string in
`generate_leet_variants(word, cap)` has exactly the length of the word: every
per-position leet alternative is a single character. -/
theorem generate_leet_variants_length_eq (word : String) (cap : Nat)
    (hw : word ≠ "") (hcap : 0 < cap) :
    ∀ x ∈ generate_leet_variants word cap, x.length = word.length := by
  intro x hx
  exact mem_generate_leet_variants_length hx

/-- Witness for claim C10 at `word = "ab"`, `cap = 100` and the variant
`"a8"`. -/
theorem generate_leet_variants_length_eq_witness : ("a8").length = ("ab").length :=
  generate_leet_variants_length_eq ("ab") 100 (by decide) (by decide) ("a8") (by decide)

/-! Lemmas about the pairwise-concatenation loop of `build_base_words`. -/

theorem mem_pairStep_of_mem {a x : String} {b : List String} (bb : String) (h : x ∈ b) :
    x ∈ pairStep a b bb := by
  unfold pairStep
  split
  · exact mem_setAdd_of_mem _ (mem_setAdd_of_mem _ h)
  · exact h

theorem mem_addPairsFor_of_mem {tokens : List String} {x : String} {b : List String}
    (a : String) (h : x ∈ b) : x ∈ addPairsFor tokens b a :=
  foldl_mem_mono (fun b y x hx => mem_pairStep_of_mem y hx) tokens b x h

theorem pair_mem_foldl_pairStep {a b : String} (hab : a ≠ b)
    (hlen : a.length + b.length ≤ 30) :
    ∀ (ts : List String) (acc : List String), b ∈ ts →
      (a ++ b) ∈ ts.foldl (pairStep a) acc ∧
      (a ++ b ++ "123") ∈ ts.foldl (pairStep a) acc := by
  intro ts
  induction ts with
  | nil =>
    intro acc h
    simp at h
  | cons t ts' ih =>
    intro acc hb
    simp only [List.foldl_cons]
    rcases List.mem_cons.mp hb with rfl | hb'
    · have hstep : pairStep a acc b = setAdd (setAdd acc (a ++ b)) (a ++ b ++ "123") := by
        unfold pairStep
        rw [if_pos ⟨hab, hlen⟩]
      rw [hstep]
      constructor
      · exact foldl_mem_mono (fun c y x hx => mem_pairStep_of_mem y hx) ts' _ _
          (mem_setAdd_of_mem _ (mem_setAdd_self _ _))
      · exact foldl_mem_mono (fun c y x hx => mem_pairStep_of_mem y hx) ts' _ _
          (mem_setAdd_self _ _)
    · exact ih _ hb'

theorem pair_mem_foldl_addPairsFor {a b : String} (hab : a ≠ b)
    (hlen : a.length + b.length ≤ 30) (tokens : List String) (hb : b ∈ tokens) :
    ∀ (outer : List String) (acc : List String), a ∈ outer →
      (a ++ b) ∈ outer.foldl (addPairsFor tokens) acc ∧
      (a ++ b ++ "123") ∈ outer.foldl (addPairsFor tokens) acc := by
  intro outer
  induction outer with
  | nil =>
    intro acc h
    simp at h
  | cons t outer' ih =>
    intro acc ha
    simp only [List.foldl_cons]
    rcases List.mem_cons.mp ha with rfl | ha'
    · have hinner := pair_mem_foldl_pairStep hab hlen tokens acc hb
      constructor
      · exact foldl_mem_mono (fun c y x hx => mem_addPairsFor_of_mem y hx) outer' _ _ hinner.1
      · exact foldl_mem_mono (fun c y x hx => mem_addPairsFor_of_mem y hx) outer' _ _ hinner.2
    · exact ih _ ha'

/-- Membership characterization of `case_variations`. -/
theorem mem_case_variations (word x : String) :
    x ∈ case_variations word ↔
      (x = word ∨ x = pyLower word ∨ x = pyUpper word ∨ x = pyCapitalize word) := by
  unfold case_variations
  rw [mem_pySorted]
  simp only [mem_setAdd, List.not_mem_nil]
  tauto

/-- Claim C6 (counterexample): `case_variations` applied to the empty string
does not return an empty set: it returns the singleton containing `""`. -/
theorem case_variations_empty_singleton :
    case_variations ("") = [""] ∧ case_variations ("") ≠ [] := by
  decide

/-- Claim C6 (amended): `case_variations("")` is the singleton containing the
empty string (not the empty set); for every non-empty word the result is
non-empty and consists exactly of the word unchanged, its lowercase, its
uppercase and its capitalized form (duplicates collapsed); in particular
`case_variations("Vijay")` is `{"Vijay", "vijay", "VIJAY"}` (sorted). -/
theorem case_variations_spec (word : String) (h : word ≠ "") :
    case_variations ("") = [""] ∧
    case_variations word ≠ [] ∧
    (∀ x, x ∈ case_variations word ↔
      (x = word ∨ x = pyLower word ∨ x = pyUpper word ∨ x = pyCapitalize word)) ∧
    case_variations ("Vijay") = ["VIJAY", "Vijay", "vijay"] := by
  refine ⟨by decide, ?_, mem_case_variations word, by decide⟩
  intro hnil
  have hw := (mem_case_variations word word).mpr (Or.inl rfl)
  rw [hnil] at hw
  simp at hw

/-- Witness for claim C6 (amended) at `word = "Vijay"`. -/
theorem case_variations_spec_witness :
    case_variations ("Vijay") = ["VIJAY", "Vijay", "vijay"] :=
  (case_variations_spec ("Vijay") (by decide)).2.2.2

/-- Claim C7: `build_base_words(["Tiger","2000"])` contains `"tiger2000"` and
`"tiger2000123"` (pairwise concatenation of the lowercased tokens, without and
with the `"123"` affix) as well as `"Tiger"` and `"Tiger123"` (case variation
plus affix); and in general, for every ordered pair of distinct lowercased
tokens `(a, b)` with combined length at most 30 — both orderings qualifying
symmetrically — both `a+b` and `a+b+"123"` are in the result. -/
theorem build_base_words_pairs (inputs : List String) (a b : String)
    (ha : a ∈ (inputs.filter (fun x => x ≠ "")).map pyLower)
    (hb : b ∈ (inputs.filter (fun x => x ≠ "")).map pyLower)
    (hab : a ≠ b) (hlen : a.length + b.length ≤ 30) :
    (a ++ b) ∈ build_base_words inputs ∧
    (a ++ b ++ "123") ∈ build_base_words inputs ∧
    "tiger2000" ∈ build_base_words ["Tiger", "2000"] ∧
    "tiger2000123" ∈ build_base_words ["Tiger", "2000"] ∧
    "Tiger" ∈ build_base_words ["Tiger", "2000"] ∧
    "Tiger123" ∈ build_base_words ["Tiger", "2000"] := by
  have hpair := pair_mem_foldl_addPairsFor hab hlen
    ((inputs.filter (fun x => x ≠ "")).map pyLower) hb
    ((inputs.filter (fun x => x ≠ "")).map pyLower) (inputs.foldl addCaseWords []) ha
  unfold build_base_words
  refine ⟨?_, ?_, by decide, by decide, by decide, by decide⟩
  · rw [mem_pySorted]
    exact hpair.1
  · rw [mem_pySorted]
    exact hpair.2

/-- Witness for claim C7 at `inputs = ["Tiger","2000"]`, `a = "tiger"`,
`b = "2000"`. -/
theorem build_base_words_pairs_witness :
    ("tiger" ++ "2000") ∈ build_base_words ["Tiger", "2000"] ∧
    ("tiger" ++ "2000" ++ "123") ∈ build_base_words ["Tiger", "2000"] :=
  ⟨(build_base_words_pairs ["Tiger", "2000"] ("tiger") ("2000")
      (by decide) (by decide) (by decide) (by decide)).1,
    (build_base_words_pairs ["Tiger", "2000"] ("tiger") ("2000")
      (by decide) (by decide) (by decide) (by decide)).2.1⟩

/-! String non-emptiness helpers. -/

theorem data_append (a b : String) : (a ++ b).data = a.data ++ b.data := rfl

theorem string_length_data (s : String) : s.length = s.data.length := rfl

theorem pyLower_ne_empty {s : String} (h : s ≠ "") : pyLower s ≠ "" := by
  intro hc
  apply h
  rw [← data_eq_nil_iff] at hc ⊢
  simpa [pyLower] using hc

theorem pyUpper_ne_empty {s : String} (h : s ≠ "") : pyUpper s ≠ "" := by
  intro hc
  apply h
  rw [← data_eq_nil_iff] at hc ⊢
  simpa [pyUpper] using hc

theorem pyCapitalize_ne_empty {s : String} (h : s ≠ "") : pyCapitalize s ≠ "" := by
  have hd : ¬ s.data = [] := fun hc => h ((data_eq_nil_iff s).mp hc)
  unfold pyCapitalize
  cases hds : s.data with
  | nil => exact absurd hds hd
  | cons c cs =>
    intro hc
    have hcd := congrArg String.data hc
    simp at hcd

theorem append_ne_empty_left {a : String} (b : String) (h : a ≠ "") : a ++ b ≠ "" := by
  intro hc
  apply h
  rw [← data_eq_nil_iff] at hc ⊢
  rw [data_append] at hc
  exact (List.append_eq_nil.mp hc).1

theorem append_ne_empty_right (a : String) {b : String} (h : b ≠ "") : a ++ b ≠ "" := by
  intro hc
  apply h
  rw [← data_eq_nil_iff] at hc ⊢
  rw [data_append] at hc
  exact (List.append_eq_nil.mp hc).2

theorem case_variations_all_ne_empty {word : String} (h : word ≠ "") :
    ∀ v ∈ case_variations word, v ≠ "" := by
  intro v hv
  rcases (mem_case_variations word v).mp hv with rfl | rfl | rfl | rfl
  · exact h
  · exact pyLower_ne_empty h
  · exact pyUpper_ne_empty h
  · exact pyCapitalize_ne_empty h

/-! Every base word is non-empty: the case path strips each token and skips
the empty ones, and the pairwise path filters out empty tokens. -/

theorem addWithAffixes_preserves {b : List String} {v : String} (hv : v ≠ "")
    (hb : ∀ x ∈ b, x ≠ "") : ∀ x ∈ addWithAffixes b v, x ≠ "" := by
  unfold addWithAffixes
  refine foldl_preserves_all (Q := fun _ : String => True) ?_ affixes
    (fun _ _ => trivial) (setAdd b v) ?_
  · intro b2 aff _ hb2 x hx
    rcases mem_setAdd.mp hx with h2 | rfl
    · exact hb2 x h2
    · exact append_ne_empty_left aff hv
  · intro x hx
    rcases mem_setAdd.mp hx with h2 | rfl
    · exact hb x h2
    · exact hv

theorem addCaseWords_preserves {b : List String} {inp : String}
    (hb : ∀ x ∈ b, x ≠ "") : ∀ x ∈ addCaseWords b inp, x ≠ "" := by
  unfold addCaseWords
  show ∀ x ∈ (if pyStrip inp = "" then b
      else (case_variations (pyStrip inp)).foldl addWithAffixes b), x ≠ ""
  split
  · exact hb
  · next hne =>
    exact foldl_preserves_all (Q := fun v : String => v ≠ "")
      (fun b2 v hv hb2 => addWithAffixes_preserves hv hb2)
      (case_variations (pyStrip inp)) (case_variations_all_ne_empty hne) b hb

theorem pairStep_preserves {a : String} (ha : a ≠ "") {b : List String} (bb : String)
    (hb : ∀ x ∈ b, x ≠ "") : ∀ x ∈ pairStep a b bb, x ≠ "" := by
  unfold pairStep
  split
  · intro x hx
    rcases mem_setAdd.mp hx with hx2 | rfl
    · rcases mem_setAdd.mp hx2 with hx3 | rfl
      · exact hb x hx3
      · exact append_ne_empty_left bb ha
    · exact append_ne_empty_left ("123") (append_ne_empty_left bb ha)
  · exact hb

theorem addPairsFor_preserves {tokens : List String} {b : List String} {a : String}
    (ha : a ≠ "") (hb : ∀ x ∈ b, x ≠ "") : ∀ x ∈ addPairsFor tokens b a, x ≠ "" :=
  foldl_preserves_all (Q := fun _ : String => True)
    (fun b2 bb _ hb2 => pairStep_preserves ha bb hb2) tokens (fun _ _ => trivial) b hb

theorem addPairs_preserves {tokens : List String} (htokens : ∀ t ∈ tokens, t ≠ "")
    {b : List String} (hb : ∀ x ∈ b, x ≠ "") : ∀ x ∈ addPairs tokens b, x ≠ "" :=
  foldl_preserves_all (Q := fun t : String => t ≠ "")
    (fun b2 a ha hb2 => addPairsFor_preserves ha hb2) tokens htokens b hb

theorem build_base_words_all_ne_empty (inputs : List String) :
    ∀ x ∈ build_base_words inputs, x ≠ "" := by
  intro x hx
  unfold build_base_words at hx
  rw [mem_pySorted] at hx
  refine addPairs_preserves ?_ ?_ x hx
  · intro t ht
    rcases List.mem_map.mp ht with ⟨t0, ht0, rfl⟩
    have h0 : t0 ≠ "" := by
      have := (List.mem_filter.mp ht0).2
      simpa using this
    exact pyLower_ne_empty h0
  · exact foldl_preserves_all (Q := fun _ : String => True)
      (fun b2 inp _ hb2 => addCaseWords_preserves hb2) inputs (fun _ _ => trivial)
      [] (by simp)

/-! Non-emptiness is preserved through the assembler loop. -/

theorem yearLoop_preserves {w : String} (hw : w ≠ "") :
    ∀ (ys : List Nat) (all : List String), (∀ x ∈ all, x ≠ "") →
      ∀ x ∈ yearLoop w ys all, x ≠ "" := by
  intro ys
  induction ys with
  | nil =>
    intro all hall
    exact hall
  | cons y ys' ih =>
    intro all hall
    unfold yearLoop
    split
    · exact hall
    · refine ih _ ?_
      intro x hx
      rcases mem_setAdd.mp hx with hx2 | rfl
      · rcases mem_setAdd.mp hx2 with hx3 | rfl
        · exact hall x hx3
        · exact append_ne_empty_left (toString y) hw
      · exact append_ne_empty_right (toString y) hw

theorem commonSuffixes_preserves {w : String} (hw : w ≠ "") {all : List String}
    (hall : ∀ x ∈ all, x ≠ "") : ∀ x ∈ commonSuffixes w all, x ≠ "" := by
  unfold commonSuffixes
  split
  · intro x hx
    rcases mem_setAdd.mp hx with hx2 | rfl
    · rcases mem_setAdd.mp hx2 with hx3 | rfl
      · exact hall x hx3
      · exact append_ne_empty_left ("007") hw
    · exact append_ne_empty_left ("1234") hw
  · exact hall

theorem processWord_preserves {all : List String} {w : String} (hw : w ≠ "")
    (hall : ∀ x ∈ all, x ≠ "") : ∀ x ∈ processWord all w, x ≠ "" := by
  unfold processWord
  refine commonSuffixes_preserves hw (yearLoop_preserves hw YEARS _ ?_)
  unfold setUnion
  refine foldl_preserves_all (Q := fun v : String => v ≠ "") ?_
    (generate_leet_variants w 500) ?_ all hall
  · intro b2 v hv hb2 x hx
    rcases mem_setAdd.mp hx with h2 | rfl
    · exact hb2 x h2
    · exact hv
  · intro v hv
    have hlen := mem_generate_leet_variants_length hv
    intro hc
    apply hw
    rw [← data_eq_nil_iff, ← List.length_eq_zero, ← string_length_data, ← hlen]
    rw [hc]
    rfl

theorem wordLoop_preserves :
    ∀ (ws : List String) (all : List String), (∀ w ∈ ws, w ≠ "") →
      (∀ x ∈ all, x ≠ "") → ∀ x ∈ wordLoop ws all, x ≠ "" := by
  intro ws
  induction ws with
  | nil =>
    intro all _ hall
    exact hall
  | cons w ws' ih =>
    intro all hws hall
    unfold wordLoop
    split
    · exact ih all (fun v hv => hws v (List.mem_cons_of_mem _ hv)) hall
    · have h2 := processWord_preserves (hws w (List.mem_cons_self _ _)) hall
      show ∀ x ∈ (if MAX_FINAL_WORDLIST_SIZE ≤ (processWord all w).length then
          processWord all w else wordLoop ws' (processWord all w)), x ≠ ""
      split
      · exact h2
      · exact ih _ (fun v hv => hws v (List.mem_cons_of_mem _ hv)) h2

theorem mem_of_mem_finalCap {l : List String} {x : String} (h : x ∈ finalCap l) :
    x ∈ l := by
  unfold finalCap at h
  split at h
  · exact List.take_subset _ _ h
  · exact h

/-- Claim C8: for every input token list whose tokens are all non-empty after
trimming, every string in the final generated wordlist is non-empty.  (The
proof does not even need the hypothesis: the generator itself discards empty
tokens on both the case path and the pairwise path.) -/
theorem generate_wordlist_all_nonempty (inputs : List String)
    (h : ∀ t ∈ inputs, pyStrip t ≠ "") :
    ∀ x ∈ generate_wordlist inputs, x ≠ "" := by
  intro x hx
  unfold generate_wordlist at hx
  have hx2 := mem_of_mem_finalCap hx
  rw [mem_pySorted] at hx2
  exact wordLoop_preserves (build_base_words inputs) (build_base_words inputs)
    (build_base_words_all_ne_empty inputs) (build_base_words_all_ne_empty inputs) x hx2

/-- Witness for claim C8 at `inputs = ["1"]` and the entry `"1"` of its
generated wordlist. -/
theorem generate_wordlist_all_nonempty_witness : "1" ≠ "" :=
  generate_wordlist_all_nonempty ["1"] (by decide) ("1") (by decide)

/-! Character-level lemmas: ASCII case mapping never produces a newline. -/

theorem toNat_ofNatAux {n : Nat} (h : n.isValidChar) :
    (Char.ofNatAux n h).toNat = n := by
  simp [Char.ofNatAux, Char.toNat, UInt32.toNat]

theorem toLower_ne_newline {c : Char} (h : c ≠ '\n') : Char.toLower c ≠ '\n' := by
  show (if c.toNat ≥ 65 ∧ c.toNat ≤ 90 then Char.ofNat (c.toNat + 32) else c) ≠ '\n'
  split
  · next hcond =>
    intro hc
    have hvalid : (c.toNat + 32).isValidChar := Or.inl (by omega)
    have heq : (Char.ofNat (c.toNat + 32)).toNat = c.toNat + 32 := by
      unfold Char.ofNat
      rw [dif_pos hvalid]
      exact toNat_ofNatAux hvalid
    rw [hc] at heq
    have h10 : ('\n').toNat = 10 := by decide
    omega
  · exact h

theorem toUpper_ne_newline {c : Char} (h : c ≠ '\n') : Char.toUpper c ≠ '\n' := by
  show (if c.toNat ≥ 97 ∧ c.toNat ≤ 122 then Char.ofNat (c.toNat - 32) else c) ≠ '\n'
  split
  · next hcond =>
    intro hc
    have hvalid : (c.toNat - 32).isValidChar := Or.inl (by omega)
    have heq : (Char.ofNat (c.toNat - 32)).toNat = c.toNat - 32 := by
      unfold Char.ofNat
      rw [dif_pos hvalid]
      exact toNat_ofNatAux hvalid
    rw [hc] at heq
    have h10 : ('\n').toNat = 10 := by decide
    omega
  · exact h

/-! Newline-freeness of each string transformation of the generator. -/

theorem pyLower_no_newline {s : String} (h : '\n' ∉ s.data) :
    '\n' ∉ (pyLower s).data := by
  intro hc
  simp only [pyLower] at hc
  rcases List.mem_map.mp hc with ⟨c, hcmem, hceq⟩
  exact toLower_ne_newline (fun hcn => h (hcn ▸ hcmem)) hceq

theorem pyUpper_no_newline {s : String} (h : '\n' ∉ s.data) :
    '\n' ∉ (pyUpper s).data := by
  intro hc
  simp only [pyUpper] at hc
  rcases List.mem_map.mp hc with ⟨c, hcmem, hceq⟩
  exact toUpper_ne_newline (fun hcn => h (hcn ▸ hcmem)) hceq

theorem pyCapitalize_no_newline {s : String} (h : '\n' ∉ s.data) :
    '\n' ∉ (pyCapitalize s).data := by
  unfold pyCapitalize
  cases hds : s.data with
  | nil => simp
  | cons c cs =>
    rw [hds] at h
    intro hc
    rcases List.mem_cons.mp hc with hc1 | hc2
    · exact toUpper_ne_newline (fun he => h (he ▸ List.mem_cons_self _ _)) hc1.symm
    · rcases List.mem_map.mp hc2 with ⟨d, hd, hde⟩
      exact toLower_ne_newline (fun he => h (he ▸ List.mem_cons_of_mem _ hd)) hde

theorem append_no_newline {a b : String} (ha : '\n' ∉ a.data) (hb : '\n' ∉ b.data) :
    '\n' ∉ (a ++ b).data := by
  rw [data_append]
  intro hc
  rcases List.mem_append.mp hc with h2 | h2
  · exact ha h2
  · exact hb h2

theorem mem_of_mem_dropWhile {α : Type} {p : α → Bool} :
    ∀ {l : List α} {x : α}, x ∈ l.dropWhile p → x ∈ l := by
  intro l
  induction l with
  | nil =>
    intro x h
    simpa using h
  | cons c cs ih =>
    intro x h
    rw [List.dropWhile_cons] at h
    by_cases hp : p c = true
    · rw [if_pos hp] at h
      exact List.mem_cons_of_mem _ (ih h)
    · rw [if_neg hp] at h
      exact h

theorem pyStrip_no_newline {s : String} (h : '\n' ∉ s.data) :
    '\n' ∉ (pyStrip s).data := by
  intro hc
  apply h
  simp only [pyStrip] at hc
  rw [List.mem_reverse] at hc
  have hc2 := mem_of_mem_dropWhile hc
  rw [List.mem_reverse] at hc2
  exact mem_of_mem_dropWhile hc2

theorem case_variations_no_newline {word : String} (h : '\n' ∉ word.data) :
    ∀ v ∈ case_variations word, '\n' ∉ v.data := by
  intro v hv
  rcases (mem_case_variations word v).mp hv with rfl | rfl | rfl | rfl
  · exact h
  · exact pyLower_no_newline h
  · exact pyUpper_no_newline h
  · exact pyCapitalize_no_newline h

theorem LEET_MAP_no_newline {d : Char} {l : List Char} (h : LEET_MAP d = some l) :
    '\n' ∉ l := by
  unfold LEET_MAP at h
  repeat' split at h
  any_goals exact Option.noConfusion h
  all_goals
    cases h
    decide

theorem mem_dedupFirst_aux : ∀ (l acc : List Char) (x : Char),
    x ∈ l.foldl (fun acc c => if c ∈ acc then acc else acc ++ [c]) acc →
    x ∈ acc ∨ x ∈ l := by
  intro l
  induction l with
  | nil =>
    intro acc x h
    exact Or.inl h
  | cons c cs ih =>
    intro acc x h
    simp only [List.foldl_cons] at h
    rcases ih _ x h with h2 | h2
    · by_cases hc : c ∈ acc
      · rw [if_pos hc] at h2
        exact Or.inl h2
      · rw [if_neg hc] at h2
        rcases List.mem_append.mp h2 with h3 | h3
        · exact Or.inl h3
        · rw [List.mem_singleton] at h3
          subst h3
          exact Or.inr (List.mem_cons_self _ _)
    · exact Or.inr (List.mem_cons_of_mem _ h2)

theorem mem_dedupFirst {l : List Char} {x : Char} (h : x ∈ dedupFirst l) : x ∈ l := by
  rcases mem_dedupFirst_aux l [] x h with h2 | h2
  · simp at h2
  · exact h2

theorem leetOptions_no_newline {ch : Char} (h : ch ≠ '\n') :
    ∀ x ∈ leetOptions ch, x ≠ '\n' := by
  intro x hx
  unfold leetOptions at hx
  cases hmap : LEET_MAP (Char.toLower ch) with
  | none =>
    rw [hmap] at hx
    rw [List.mem_singleton] at hx
    subst hx
    exact h
  | some alts =>
    rw [hmap] at hx
    rcases List.mem_cons.mp (mem_dedupFirst hx) with rfl | h3
    · exact h
    · exact fun hc => LEET_MAP_no_newline hmap (hc ▸ h3)

theorem forall₂_exists_of_mem {R : Char → List Char → Prop} :
    ∀ {l₁ : List Char} {l₂ : List (List Char)}, List.Forall₂ R l₁ l₂ →
      ∀ {x : Char}, x ∈ l₁ → ∃ y ∈ l₂, R x y := by
  intro l₁ l₂ h
  induction h with
  | nil =>
    intro x hx
    simp at hx
  | cons hr ht ih =>
    intro x hx
    rcases List.mem_cons.mp hx with rfl | hx2
    · exact ⟨_, List.mem_cons_self _ _, hr⟩
    · obtain ⟨y, hy, hr2⟩ := ih hx2
      exact ⟨y, List.mem_cons_of_mem _ hy, hr2⟩

theorem generate_leet_variants_no_newline {w : String} {cap : Nat}
    (hw : '\n' ∉ w.data) : ∀ x ∈ generate_leet_variants w cap, '\n' ∉ x.data := by
  intro x hx
  unfold generate_leet_variants at hx
  split at hx
  · simp at hx
  · rcases mem_accumulateCapped hx with h | ⟨combo, hcombo, rfl⟩
    · simp at h
    · intro hc
      have hf := mem_charProduct_forall₂ hcombo
      obtain ⟨cs, hcs, hmem⟩ := forall₂_exists_of_mem hf hc
      rcases List.mem_map.mp hcs with ⟨ch, hch, rfl⟩
      exact leetOptions_no_newline (fun he => hw (he ▸ hch)) _ hmem rfl

/-! Newline-freeness of all base words and of the assembled wordlist. -/

theorem addWithAffixes_no_newline {b : List String} {v : String} (hv : '\n' ∉ v.data)
    (hb : ∀ x ∈ b, '\n' ∉ x.data) : ∀ x ∈ addWithAffixes b v, '\n' ∉ x.data := by
  unfold addWithAffixes
  refine foldl_preserves_all (Q := fun aff : String => '\n' ∉ aff.data) ?_ affixes
    (by decide) (setAdd b v) ?_
  · intro b2 aff haff hb2 x hx
    rcases mem_setAdd.mp hx with h2 | rfl
    · exact hb2 x h2
    · exact append_no_newline hv haff
  · intro x hx
    rcases mem_setAdd.mp hx with h2 | rfl
    · exact hb x h2
    · exact hv

theorem addCaseWords_no_newline {b : List String} {inp : String} (hi : '\n' ∉ inp.data)
    (hb : ∀ x ∈ b, '\n' ∉ x.data) : ∀ x ∈ addCaseWords b inp, '\n' ∉ x.data := by
  unfold addCaseWords
  show ∀ x ∈ (if pyStrip inp = "" then b
      else (case_variations (pyStrip inp)).foldl addWithAffixes b), '\n' ∉ x.data
  split
  · exact hb
  · exact foldl_preserves_all (Q := fun v : String => '\n' ∉ v.data)
      (fun b2 v hv hb2 => addWithAffixes_no_newline hv hb2)
      (case_variations (pyStrip inp)) (case_variations_no_newline (pyStrip_no_newline hi))
      b hb

theorem pairStep_no_newline {a : String} (ha : '\n' ∉ a.data) {b : List String}
    {bb : String} (hbb : '\n' ∉ bb.data) (hb : ∀ x ∈ b, '\n' ∉ x.data) :
    ∀ x ∈ pairStep a b bb, '\n' ∉ x.data := by
  unfold pairStep
  split
  · intro x hx
    rcases mem_setAdd.mp hx with hx2 | rfl
    · rcases mem_setAdd.mp hx2 with hx3 | rfl
      · exact hb x hx3
      · exact append_no_newline ha hbb
    · exact append_no_newline (append_no_newline ha hbb) (by decide)
  · exact hb

theorem addPairsFor_no_newline {tokens : List String}
    (htokens : ∀ t ∈ tokens, '\n' ∉ t.data) {b : List String} {a : String}
    (ha : '\n' ∉ a.data) (hb : ∀ x ∈ b, '\n' ∉ x.data) :
    ∀ x ∈ addPairsFor tokens b a, '\n' ∉ x.data :=
  foldl_preserves_all (Q := fun bb : String => '\n' ∉ bb.data)
    (fun b2 bb hbb hb2 => pairStep_no_newline ha hbb hb2) tokens htokens b hb

theorem addPairs_no_newline {tokens : List String}
    (htokens : ∀ t ∈ tokens, '\n' ∉ t.data) {b : List String}
    (hb : ∀ x ∈ b, '\n' ∉ x.data) : ∀ x ∈ addPairs tokens b, '\n' ∉ x.data :=
  foldl_preserves_all (Q := fun a : String => '\n' ∉ a.data)
    (fun b2 a ha hb2 => addPairsFor_no_newline htokens ha hb2) tokens htokens b hb

theorem build_base_words_no_newline {inputs : List String}
    (h : ∀ t ∈ inputs, '\n' ∉ t.data) :
    ∀ x ∈ build_base_words inputs, '\n' ∉ x.data := by
  intro x hx
  unfold build_base_words at hx
  rw [mem_pySorted] at hx
  refine addPairs_no_newline ?_ ?_ x hx
  · intro t ht
    rcases List.mem_map.mp ht with ⟨t0, ht0, rfl⟩
    exact pyLower_no_newline (h t0 (List.mem_of_mem_filter ht0))
  · exact foldl_preserves_all (Q := fun inp : String => '\n' ∉ inp.data)
      (fun b2 inp hi hb2 => addCaseWords_no_newline hi hb2) inputs h [] (by simp)

theorem yearLoop_no_newline {w : String} (hw : '\n' ∉ w.data) :
    ∀ (ys : List Nat), (∀ y ∈ ys, '\n' ∉ (toString y).data) →
      ∀ (all : List String), (∀ x ∈ all, '\n' ∉ x.data) →
      ∀ x ∈ yearLoop w ys all, '\n' ∉ x.data := by
  intro ys
  induction ys with
  | nil =>
    intro _ all hall
    exact hall
  | cons y ys' ih =>
    intro hys all hall
    unfold yearLoop
    split
    · exact hall
    · refine ih (fun z hz => hys z (List.mem_cons_of_mem _ hz)) _ ?_
      intro x hx
      have hy := hys y (List.mem_cons_self _ _)
      rcases mem_setAdd.mp hx with hx2 | rfl
      · rcases mem_setAdd.mp hx2 with hx3 | rfl
        · exact hall x hx3
        · exact append_no_newline hw hy
      · exact append_no_newline hy hw

theorem commonSuffixes_no_newline {w : String} (hw : '\n' ∉ w.data)
    {all : List String} (hall : ∀ x ∈ all, '\n' ∉ x.data) :
    ∀ x ∈ commonSuffixes w all, '\n' ∉ x.data := by
  unfold commonSuffixes
  split
  · intro x hx
    rcases mem_setAdd.mp hx with hx2 | rfl
    · rcases mem_setAdd.mp hx2 with hx3 | rfl
      · exact hall x hx3
      · exact append_no_newline hw (by decide)
    · exact append_no_newline hw (by decide)
  · exact hall

theorem processWord_no_newline {all : List String} {w : String} (hw : '\n' ∉ w.data)
    (hall : ∀ x ∈ all, '\n' ∉ x.data) : ∀ x ∈ processWord all w, '\n' ∉ x.data := by
  unfold processWord
  refine commonSuffixes_no_newline hw (yearLoop_no_newline hw YEARS (by decide) _ ?_)
  unfold setUnion
  refine foldl_preserves_all (Q := fun v : String => '\n' ∉ v.data) ?_
    (generate_leet_variants w 500) (generate_leet_variants_no_newline hw) all hall
  intro b2 v hv hb2 x hx
  rcases mem_setAdd.mp hx with h2 | rfl
  · exact hb2 x h2
  · exact hv

theorem wordLoop_no_newline :
    ∀ (ws : List String) (all : List String), (∀ w ∈ ws, '\n' ∉ w.data) →
      (∀ x ∈ all, '\n' ∉ x.data) → ∀ x ∈ wordLoop ws all, '\n' ∉ x.data := by
  intro ws
  induction ws with
  | nil =>
    intro all _ hall
    exact hall
  | cons w ws' ih =>
    intro all hws hall
    unfold wordLoop
    split
    · exact ih all (fun v hv => hws v (List.mem_cons_of_mem _ hv)) hall
    · have h2 := processWord_no_newline (hws w (List.mem_cons_self _ _)) hall
      show ∀ x ∈ (if MAX_FINAL_WORDLIST_SIZE ≤ (processWord all w).length then
          processWord all w else wordLoop ws' (processWord all w)), '\n' ∉ x.data
      split
      · exact h2
      · exact ih _ (fun v hv => hws v (List.mem_cons_of_mem _ hv)) h2

/-! The one-entry-per-line round trip. -/

theorem linesOfAux_append {line : List Char} (hline : '\n' ∉ line) :
    ∀ (rest : List Char) (cur : List Char),
      linesOfAux (line ++ '\n' :: rest) cur =
        String.mk (cur ++ line) :: linesOfAux rest [] := by
  induction line with
  | nil =>
    intro rest cur
    simp [linesOfAux]
  | cons c cs ih =>
    intro rest cur
    have hc : ¬ c = '\n' := fun hc => hline (hc ▸ List.mem_cons_self _ _)
    simp only [List.cons_append, linesOfAux]
    rw [if_neg hc]
    rw [show cs.append ('\n' :: rest) = cs ++ '\n' :: rest from rfl]
    rw [ih (fun hm => hline (List.mem_cons_of_mem _ hm)) rest (cur ++ [c])]
    simp

theorem linesOf_fileChars {l : List String} (h : ∀ s ∈ l, '\n' ∉ s.data) :
    linesOf (fileChars l) = l := by
  induction l with
  | nil => rfl
  | cons s rest ih =>
    rw [show fileChars (s :: rest) = s.data ++ '\n' :: fileChars rest from rfl]
    unfold linesOf
    rw [linesOfAux_append (h s (List.mem_cons_self _ _)) (fileChars rest) []]
    simp only [List.nil_append, string_mk_data]
    rw [show linesOfAux (fileChars rest) [] = linesOf (fileChars rest) from rfl]
    rw [ih (fun t ht => h t (List.mem_cons_of_mem _ ht))]

/-- Claim C9 (counterexample): the claim is quantified over every input token
list, but for the token `"1\n2"` (already trimmed — the newline is interior,
so `strip` keeps it) the generated wordlist contains the entry `"1\n2"`
itself, which contains a newline; writing it one-per-line and re-reading
cannot give back the identical sequence. -/
theorem generate_wordlist_newline_counterexample :
    "1\n2" ∈ generate_wordlist ["1\n2"] ∧ '\n' ∈ ("1\n2").data := by
  constructor
  · decide
  · decide

/-- Claim C9 (amended): for every input token list in which no token contains
a newline character, no entry of the generated wordlist contains a newline,
and writing the sequence one entry per line and re-reading it yields back the
identical sequence. -/
theorem generate_wordlist_roundtrip (inputs : List String)
    (h : ∀ t ∈ inputs, '\n' ∉ t.data) :
    (∀ x ∈ generate_wordlist inputs, '\n' ∉ x.data) ∧
    linesOf (fileChars (generate_wordlist inputs)) = generate_wordlist inputs := by
  have hall : ∀ x ∈ generate_wordlist inputs, '\n' ∉ x.data := by
    intro x hx
    unfold generate_wordlist at hx
    have hx2 := mem_of_mem_finalCap hx
    rw [mem_pySorted] at hx2
    exact wordLoop_no_newline (build_base_words inputs) (build_base_words inputs)
      (build_base_words_no_newline h) (build_base_words_no_newline h) x hx2
  exact ⟨hall, linesOf_fileChars hall⟩

/-- Witness for claim C9 (amended) at `inputs = ["a"]`. -/
theorem generate_wordlist_roundtrip_witness :
    linesOf (fileChars (generate_wordlist ["a"])) = generate_wordlist ["a"] :=
  (generate_wordlist_roundtrip ["a"] (by decide)).2

end PasswordChecker
